import Mathlib

set_option linter.unusedSectionVars false

/-!
Shallow embedding of `CircularBuffer<T, S, IT>` (src/CircularBuffer.tpp).

The C++ container owns a fixed array `buffer` of `S` elements and keeps two
pointers `head`, `tail` into it together with a cardinality `count`.  We embed
the pointers as `Nat` indices (pointer `p` into `buffer` becomes the offset
`p - buffer`), the storage as a `List α` whose length is the capacity `S`,
and each member function as a pure function on the state record; a mutating
member returns the new state (paired with its return value when the C++
function returns one).  `const` members become functions that read the state
only.  Reads of `*p` become `List.getD` at the index (the C++ code only ever
dereferences in-range pointers on the states the claims quantify over), and
writes `*p = v` become `List.set`.
-/

structure CircularBuffer (α : Type) where
  buffer : List α
  head : Nat
  tail : Nat
  count : Nat
deriving Repr, DecidableEq

namespace CircularBuffer

variable {α β : Type} [Inhabited α] [Inhabited β]

/-- Capacity `S`: the length of the owned storage array. -/
def capacity (cb : CircularBuffer α) : Nat := cb.buffer.length

/-- The default constructor: `head(buffer), tail(buffer), count(0)`; the
initial contents of the storage array are the default-initialised values,
which we keep abstract as the parameter `init`. -/
def mkEmpty (init : List α) : CircularBuffer α :=
  ⟨init, 0, 0, 0⟩

/-- `bool unshift(T value)` (push_front), lines 24-41 of the source:
wrap `head` to one-past-the-end when it sits at the start, pre-decrement,
store, then either retreat `tail` (full case, returns `false`) or bump
`count` (setting `tail = head` on first insertion, returns `true`). -/
def unshift (cb : CircularBuffer α) (value : α) : CircularBuffer α × Bool :=
  let h0 := if cb.head = 0 then cb.capacity else cb.head
  let head' := h0 - 1
  let buffer' := cb.buffer.set head' value
  if cb.count = cb.capacity then
    let tail' := if cb.tail = 0 then cb.capacity - 1 else cb.tail - 1
    (⟨buffer', head', tail', cb.count⟩, false)
  else
    let tail' := if cb.count = 0 then head' else cb.tail
    (⟨buffer', head', tail', cb.count + 1⟩, true)

/-- `bool push(T value)` (push_back), lines 43-60 of the source:
pre-increment `tail`, wrapping to the start when it reaches one past the
end, store, then either advance `head` (full case, returns `false`) or bump
`count` (setting `head = tail` on first insertion, returns `true`). -/
def push (cb : CircularBuffer α) (value : α) : CircularBuffer α × Bool :=
  let tail' := if cb.tail + 1 = cb.capacity then 0 else cb.tail + 1
  let buffer' := cb.buffer.set tail' value
  if cb.count = cb.capacity then
    let head' := if cb.head + 1 = cb.capacity then 0 else cb.head + 1
    (⟨buffer', head', tail', cb.count⟩, false)
  else
    let head' := if cb.count = 0 then tail' else cb.head
    (⟨buffer', head', tail', cb.count + 1⟩, true)

/-- `T&& shift()` (pop_front), lines 62-71 of the source: on an empty buffer
return `*head` leaving the state alone; otherwise read `*head`,
post-increment `head` wrapping at one past the end, decrement `count`. -/
def shift (cb : CircularBuffer α) : CircularBuffer α × α :=
  if cb.count = 0 then (cb, cb.buffer.getD cb.head default)
  else
    let result := cb.buffer.getD cb.head default
    let head' := if cb.head + 1 ≥ cb.capacity then 0 else cb.head + 1
    (⟨cb.buffer, head', cb.tail, cb.count - 1⟩, result)

/-- `void shiftNoReturn()` (discard_front), lines 73-80: no-op when empty,
otherwise advance `head` (wrapping) and decrement `count`. -/
def shiftNoReturn (cb : CircularBuffer α) : CircularBuffer α :=
  if cb.count = 0 then cb
  else
    let head' := if cb.head + 1 ≥ cb.capacity then 0 else cb.head + 1
    ⟨cb.buffer, head', cb.tail, cb.count - 1⟩

/-- `T&& pop()` (pop_back), lines 82-91 of the source: on an empty buffer
return `*tail` leaving the state alone; otherwise read `*tail`,
post-decrement `tail` wrapping below the start, decrement `count`. -/
def pop (cb : CircularBuffer α) : CircularBuffer α × α :=
  if cb.count = 0 then (cb, cb.buffer.getD cb.tail default)
  else
    let result := cb.buffer.getD cb.tail default
    let tail' := if cb.tail = 0 then cb.capacity - 1 else cb.tail - 1
    (⟨cb.buffer, cb.head, tail', cb.count - 1⟩, result)

/-- `void popNoReturn()` (discard_back), lines 93-100: no-op when empty,
otherwise retreat `tail` (wrapping) and decrement `count`. -/
def popNoReturn (cb : CircularBuffer α) : CircularBuffer α :=
  if cb.count = 0 then cb
  else
    let tail' := if cb.tail = 0 then cb.capacity - 1 else cb.tail - 1
    ⟨cb.buffer, cb.head, tail', cb.count - 1⟩

/-- The reference returned by `T& operator[](IT index)` (and its `const`
overload, whose body is identical), lines 102-112: a reference into owned
storage is embedded as the index of the slot it points at.  `index >= count`
yields `tail`; otherwise the slot is `(head - buffer + index) % capacity`. -/
def refAt (cb : CircularBuffer α) (index : Nat) : Nat :=
  if index ≥ cb.count then cb.tail
  else (cb.head + index) % cb.capacity

/-- The value read through the reference `operator[]` returns. -/
def elemAt (cb : CircularBuffer α) (index : Nat) : α :=
  cb.buffer.getD (cb.refAt index) default

/-- `IT size() const`, lines 114-117. -/
def size (cb : CircularBuffer α) : Nat := cb.count

/-- `IT available() const`, lines 119-122 (`capacity - count` in the
unsigned index type `IT`). -/
def available (cb : CircularBuffer α) : Nat := cb.capacity - cb.count

/-- `bool isEmpty() const`, lines 124-127. -/
def isEmpty (cb : CircularBuffer α) : Bool := cb.count = 0

/-- `bool isFull() const`, lines 129-132. -/
def isFull (cb : CircularBuffer α) : Bool := cb.count = cb.capacity

/-- `void clear()`, lines 134-138: `head = tail = buffer; count = 0;` with
the stored elements left in place. -/
def clear (cb : CircularBuffer α) : CircularBuffer α :=
  ⟨cb.buffer, 0, 0, 0⟩

/-- One copy loop of `copyToArray`, lines 143-145 / 146-148 (and the
converting overload's mirror loops, lines 155-160): walk `current` from
`lo` up to (strictly below) `hi` over `src`, writing `f(*current)` into
`dest` at position `d`, stopping as soon as `d` reaches `fin`
(`dest < finish`).  Returns the updated destination and the final write
position. -/
def copyLoop (src : List α) (f : α → β) : Nat → Nat → List β → Nat → Nat → List β × Nat
  | lo, hi, dest, d, fin =>
    if h : lo < hi ∧ d < fin then
      copyLoop src f (lo + 1) hi (dest.set d (f (src.getD lo default))) (d + 1) fin
    else (dest, d)
termination_by lo hi _ _ _ => hi - lo

/-- `void copyToArray(T* dest) const`, lines 140-149: `finish = dest + count`;
first loop runs `current` from `head` to the physical end of storage, the
second from the start of storage up to and including `tail`, both bounded by
`finish`.  The method is `const`; we return the (unchanged) container state
together with the updated destination array to record its frame. -/
def copyToArray (cb : CircularBuffer α) (dest : List α) :
    CircularBuffer α × List α :=
  let r1 := copyLoop cb.buffer id cb.head cb.capacity dest 0 cb.count
  let r2 := copyLoop cb.buffer id 0 (cb.tail + 1) r1.1 r1.2 cb.count
  (cb, r2.1)

/-- `void copyToArray(R* dest, R (&convertFn)(const T&)) const`,
lines 151-161: identical control flow with `convertFn` applied to every
element copied. -/
def copyToArrayFn (cb : CircularBuffer α) (convertFn : α → β) (dest : List β) :
    CircularBuffer α × List β :=
  let r1 := copyLoop cb.buffer convertFn cb.head cb.capacity dest 0 cb.count
  let r2 := copyLoop cb.buffer convertFn 0 (cb.tail + 1) r1.1 r1.2 cb.count
  (cb, r2.1)

end CircularBuffer

namespace CircularBuffer

variable {α β : Type} [Inhabited α] [Inhabited β]

/-! ### The operations as a transition system, and the state invariant -/

/-- One public mutating operation, as named by the specification. -/
inductive Op (α : Type) where
  | pushBack (v : α)
  | pushFront (v : α)
  | popFront
  | popBack
  | discardFront
  | discardBack
  | clearAll

/-- Apply one operation to a state (discarding returned values). -/
def applyOp (cb : CircularBuffer α) : Op α → CircularBuffer α
  | .pushBack v => (cb.push v).1
  | .pushFront v => (cb.unshift v).1
  | .popFront => cb.shift.1
  | .popBack => cb.pop.1
  | .discardFront => cb.shiftNoReturn
  | .discardBack => cb.popNoReturn
  | .clearAll => cb.clear

/-- The states reachable from the default-constructed buffer (with
default-initialised storage `init`) by any sequence of public operations. -/
inductive Reachable (init : List α) : CircularBuffer α → Prop where
  | base : Reachable init (mkEmpty init)
  | step : ∀ {cb : CircularBuffer α} (op : Op α),
      Reachable init cb → Reachable init (applyOp cb op)

/-- The state invariant maintained by every operation: the storage length is
the capacity `S`, `count` never exceeds it, `head` and `tail` are in-range,
when the buffer is nonempty `tail` sits `count - 1` slots after `head`
(mod `S`), and when it is empty `head` is either equal to `tail` or one slot
after it (the latter arises right after popping the last element). -/
structure Inv (S : Nat) (cb : CircularBuffer α) : Prop where
  len : cb.buffer.length = S
  count_le : cb.count ≤ S
  head_lt : cb.head < S
  tail_lt : cb.tail < S
  tail_eq : 0 < cb.count → cb.tail = (cb.head + cb.count - 1) % S
  empty_ht : cb.count = 0 → cb.head = cb.tail ∨ cb.head = (cb.tail + 1) % S

/-! ### Wraparound arithmetic helpers -/

lemma wrap_succ {S x : Nat} (hx : x < S) :
    (if x + 1 = S then 0 else x + 1) = (x + 1) % S := by
  rcases eq_or_ne (x + 1) S with h | h
  · simp [h]
  · rw [if_neg h, Nat.mod_eq_of_lt (by omega)]

lemma wrap_succ_ge {S x : Nat} (hx : x < S) :
    (if x + 1 ≥ S then 0 else x + 1) = (x + 1) % S := by
  rcases eq_or_ne (x + 1) S with h | h
  · simp [h]
  · rw [if_neg (by omega), Nat.mod_eq_of_lt (by omega)]

lemma wrap_pred {S x : Nat} (hx : x < S) :
    (if x = 0 then S - 1 else x - 1) = (x + S - 1) % S := by
  rcases eq_or_ne x 0 with h | h
  · subst h
    rw [if_pos rfl]
    have h1 : 0 + S - 1 = S - 1 := by omega
    rw [h1, Nat.mod_eq_of_lt (by omega)]
  · rw [if_neg h]
    have h2 : x + S - 1 = (x - 1) + S := by omega
    rw [h2, Nat.add_mod_right, Nat.mod_eq_of_lt (by omega)]

lemma wrap_pred' {S x : Nat} (hx : x < S) :
    (if x = 0 then S else x) - 1 = (x + S - 1) % S := by
  rcases eq_or_ne x 0 with h | h
  · subst h
    rw [if_pos rfl]
    have h1 : 0 + S - 1 = S - 1 := by omega
    rw [h1, Nat.mod_eq_of_lt (by omega)]
  · rw [if_neg h]
    have h2 : x + S - 1 = (x - 1) + S := by omega
    rw [h2, Nat.add_mod_right, Nat.mod_eq_of_lt (by omega)]

/-! ### `getD`/`set` helpers -/

lemma getD_set_self {l : List α} {i : Nat} (h : i < l.length) (x : α) :
    (l.set i x).getD i default = x := by
  rw [List.getD_eq_getElem _ _ (by simpa using h), List.getElem_set_self]

lemma getD_set_ne {l : List α} {i j : Nat} (h : i ≠ j) (x : α) :
    (l.set i x).getD j default = l.getD j default := by
  rw [List.getD_eq_getElem?_getD, List.getD_eq_getElem?_getD, List.getElem?_set_ne h]

/-! ### Characterisations of the four double-ended operations -/

/-- `push` in closed form, on states whose `head` and `tail` are in range. -/
lemma push_eq {cb : CircularBuffer α} (hh : cb.head < cb.capacity)
    (ht : cb.tail < cb.capacity) (v : α) :
    cb.push v =
      (⟨cb.buffer.set ((cb.tail + 1) % cb.capacity) v,
        if cb.count = cb.capacity then (cb.head + 1) % cb.capacity
        else if cb.count = 0 then (cb.tail + 1) % cb.capacity else cb.head,
        (cb.tail + 1) % cb.capacity,
        if cb.count = cb.capacity then cb.count else cb.count + 1⟩,
       decide (cb.count ≠ cb.capacity)) := by
  unfold push
  rw [wrap_succ ht, wrap_succ hh]
  by_cases hfull : cb.count = cb.capacity <;> simp [hfull]

/-- `unshift` in closed form, on states whose `head` and `tail` are in
range. -/
lemma unshift_eq {cb : CircularBuffer α} (hh : cb.head < cb.capacity)
    (ht : cb.tail < cb.capacity) (v : α) :
    cb.unshift v =
      (⟨cb.buffer.set ((cb.head + cb.capacity - 1) % cb.capacity) v,
        (cb.head + cb.capacity - 1) % cb.capacity,
        if cb.count = cb.capacity then (cb.tail + cb.capacity - 1) % cb.capacity
        else if cb.count = 0 then (cb.head + cb.capacity - 1) % cb.capacity
        else cb.tail,
        if cb.count = cb.capacity then cb.count else cb.count + 1⟩,
       decide (cb.count ≠ cb.capacity)) := by
  unfold unshift
  dsimp only
  rw [wrap_pred' hh, wrap_pred ht]
  by_cases hfull : cb.count = cb.capacity <;> simp [hfull]

/-- `shift` in closed form on nonempty in-range states. -/
lemma shift_eq {cb : CircularBuffer α} (hh : cb.head < cb.capacity)
    (hc : 0 < cb.count) :
    cb.shift =
      (⟨cb.buffer, (cb.head + 1) % cb.capacity, cb.tail, cb.count - 1⟩,
       cb.buffer.getD cb.head default) := by
  unfold shift
  rw [wrap_succ_ge hh, if_neg (by omega)]

/-- `pop` in closed form on nonempty in-range states. -/
lemma pop_eq {cb : CircularBuffer α} (ht : cb.tail < cb.capacity)
    (hc : 0 < cb.count) :
    cb.pop =
      (⟨cb.buffer, cb.head, (cb.tail + cb.capacity - 1) % cb.capacity,
        cb.count - 1⟩,
       cb.buffer.getD cb.tail default) := by
  unfold pop
  rw [wrap_pred ht, if_neg (by omega)]

/-- `shiftNoReturn` in closed form on nonempty in-range states. -/
lemma shiftNoReturn_eq {cb : CircularBuffer α} (hh : cb.head < cb.capacity)
    (hc : 0 < cb.count) :
    cb.shiftNoReturn =
      ⟨cb.buffer, (cb.head + 1) % cb.capacity, cb.tail, cb.count - 1⟩ := by
  unfold shiftNoReturn
  rw [wrap_succ_ge hh, if_neg (by omega)]

/-- `popNoReturn` in closed form on nonempty in-range states. -/
lemma popNoReturn_eq {cb : CircularBuffer α} (ht : cb.tail < cb.capacity)
    (hc : 0 < cb.count) :
    cb.popNoReturn =
      ⟨cb.buffer, cb.head, (cb.tail + cb.capacity - 1) % cb.capacity,
        cb.count - 1⟩ := by
  unfold popNoReturn
  rw [wrap_pred ht, if_neg (by omega)]

end CircularBuffer


namespace CircularBuffer

variable {α β : Type} [Inhabited α] [Inhabited β]

/-! ### Case-split closed forms for the two insertions -/

lemma push_eq_full {cb : CircularBuffer α} (hh : cb.head < cb.capacity)
    (ht : cb.tail < cb.capacity) (hfull : cb.count = cb.capacity) (v : α) :
    cb.push v =
      (⟨cb.buffer.set ((cb.tail + 1) % cb.capacity) v,
        (cb.head + 1) % cb.capacity,
        (cb.tail + 1) % cb.capacity, cb.count⟩, false) := by
  unfold push
  dsimp only
  rw [wrap_succ ht, wrap_succ hh, if_pos hfull]

lemma push_eq_empty {cb : CircularBuffer α} (ht : cb.tail < cb.capacity)
    (hne : cb.count ≠ cb.capacity) (h0 : cb.count = 0) (v : α) :
    cb.push v =
      (⟨cb.buffer.set ((cb.tail + 1) % cb.capacity) v,
        (cb.tail + 1) % cb.capacity,
        (cb.tail + 1) % cb.capacity, cb.count + 1⟩, true) := by
  unfold push
  dsimp only
  rw [wrap_succ ht, if_neg hne, if_pos h0]

lemma push_eq_mid {cb : CircularBuffer α} (ht : cb.tail < cb.capacity)
    (hne : cb.count ≠ cb.capacity) (h0 : cb.count ≠ 0) (v : α) :
    cb.push v =
      (⟨cb.buffer.set ((cb.tail + 1) % cb.capacity) v,
        cb.head, (cb.tail + 1) % cb.capacity, cb.count + 1⟩, true) := by
  unfold push
  dsimp only
  rw [wrap_succ ht, if_neg hne, if_neg h0]

lemma unshift_eq_full {cb : CircularBuffer α} (hh : cb.head < cb.capacity)
    (ht : cb.tail < cb.capacity) (hfull : cb.count = cb.capacity) (v : α) :
    cb.unshift v =
      (⟨cb.buffer.set ((cb.head + cb.capacity - 1) % cb.capacity) v,
        (cb.head + cb.capacity - 1) % cb.capacity,
        (cb.tail + cb.capacity - 1) % cb.capacity, cb.count⟩, false) := by
  unfold unshift
  dsimp only
  rw [wrap_pred' hh, wrap_pred ht, if_pos hfull]

lemma unshift_eq_empty {cb : CircularBuffer α} (hh : cb.head < cb.capacity)
    (hne : cb.count ≠ cb.capacity) (h0 : cb.count = 0) (v : α) :
    cb.unshift v =
      (⟨cb.buffer.set ((cb.head + cb.capacity - 1) % cb.capacity) v,
        (cb.head + cb.capacity - 1) % cb.capacity,
        (cb.head + cb.capacity - 1) % cb.capacity, cb.count + 1⟩, true) := by
  unfold unshift
  dsimp only
  rw [wrap_pred' hh, if_neg hne, if_pos h0]

lemma unshift_eq_mid {cb : CircularBuffer α} (hh : cb.head < cb.capacity)
    (hne : cb.count ≠ cb.capacity) (h0 : cb.count ≠ 0) (v : α) :
    cb.unshift v =
      (⟨cb.buffer.set ((cb.head + cb.capacity - 1) % cb.capacity) v,
        (cb.head + cb.capacity - 1) % cb.capacity,
        cb.tail, cb.count + 1⟩, true) := by
  unfold unshift
  dsimp only
  rw [wrap_pred' hh, if_neg hne, if_neg h0]

end CircularBuffer

namespace CircularBuffer

variable {α β : Type} [Inhabited α] [Inhabited β]

/-! ### Invariant preservation -/

lemma Inv.capacity_eq {S : Nat} {cb : CircularBuffer α} (h : Inv S cb) :
    cb.capacity = S := h.len

lemma Inv_mkEmpty {S : Nat} (hS : 0 < S) {init : List α}
    (hlen : init.length = S) : Inv S (mkEmpty init) := by
  refine ⟨hlen, ?_, ?_, ?_, ?_, ?_⟩
  · exact Nat.zero_le S
  · exact hS
  · exact hS
  · intro hcontra
    simp [mkEmpty] at hcontra
  · intro _
    exact Or.inl rfl

lemma Inv_push {S : Nat} {cb : CircularBuffer α} (h : Inv S cb) (v : α) :
    Inv S (cb.push v).1 := by
  obtain ⟨hlen, hcle, hh, ht, hte, -⟩ := h
  have hcap : cb.capacity = S := hlen
  have hS : 0 < S := by omega
  by_cases hfull : cb.count = cb.capacity
  · rw [push_eq_full (by omega) (by omega) hfull v]
    have htv := hte (by omega)
    refine ⟨by simpa using hlen, by simpa using hcle, ?_, ?_, ?_, ?_⟩
    · simpa [hcap] using Nat.mod_lt (cb.head + 1) hS
    · simpa [hcap] using Nat.mod_lt (cb.tail + 1) hS
    · intro _
      simp only [hcap]
      rw [htv, Nat.mod_add_mod]
      have h1 : (cb.head + 1) % S + cb.count - 1 = (cb.head + 1) % S + (S - 1) := by
        omega
      rw [h1, Nat.mod_add_mod]
      have h2 : cb.head + cb.count - 1 + 1 = cb.head + S := by omega
      have h3 : cb.head + 1 + (S - 1) = cb.head + S := by omega
      rw [h2, h3]
    · intro hc0
      simp only at hc0
      omega
  · by_cases hc0 : cb.count = 0
    · rw [push_eq_empty (by omega) hfull hc0 v]
      refine ⟨by simpa using hlen, by simp [hcap] at hfull ⊢; omega, ?_, ?_, ?_, ?_⟩
      · simpa [hcap] using Nat.mod_lt (cb.tail + 1) hS
      · simpa [hcap] using Nat.mod_lt (cb.tail + 1) hS
      · intro _
        simp only [hcap, hc0]
        have h1 : (cb.tail + 1) % S + (0 + 1) - 1 = (cb.tail + 1) % S := by omega
        rw [h1, Nat.mod_mod_of_dvd _ dvd_rfl]
      · intro hc
        simp only at hc
        omega
    · rw [push_eq_mid (by omega) hfull hc0 v]
      have htv := hte (by omega)
      refine ⟨by simpa using hlen, by simp [hcap] at hfull ⊢; omega, ?_, ?_, ?_, ?_⟩
      · simpa using hh
      · simpa [hcap] using Nat.mod_lt (cb.tail + 1) hS
      · intro _
        simp only [hcap]
        rw [htv, Nat.mod_add_mod]
        have h1 : cb.head + cb.count - 1 + 1 = cb.head + (cb.count + 1) - 1 := by
          omega
        rw [h1]
      · intro hc
        simp only at hc
        omega

lemma Inv_unshift {S : Nat} {cb : CircularBuffer α} (h : Inv S cb) (v : α) :
    Inv S (cb.unshift v).1 := by
  obtain ⟨hlen, hcle, hh, ht, hte, -⟩ := h
  have hcap : cb.capacity = S := hlen
  have hS : 0 < S := by omega
  by_cases hfull : cb.count = cb.capacity
  · rw [unshift_eq_full (by omega) (by omega) hfull v]
    have htv := hte (by simp [hcap] at hfull; omega)
    refine ⟨by simpa using hlen, by simpa using hcle, ?_, ?_, ?_, ?_⟩
    · simpa [hcap] using Nat.mod_lt (cb.head + S - 1) hS
    · simpa [hcap] using Nat.mod_lt (cb.tail + S - 1) hS
    · intro _
      simp only [hcap]
      rw [htv]
      have hcS : cb.count = S := by rw [hfull, hcap]
      have h1 : (cb.head + cb.count - 1) % S + S - 1 =
          (cb.head + cb.count - 1) % S + (S - 1) := by omega
      have h2 : (cb.head + S - 1) % S + cb.count - 1 =
          (cb.head + S - 1) % S + (cb.count - 1) := by omega
      rw [h1, h2, Nat.mod_add_mod, Nat.mod_add_mod]
      congr 1
      omega
    · intro hc0
      simp only at hc0
      have hcS : cb.count = S := by rw [hfull, hcap]
      omega
  · by_cases hc0 : cb.count = 0
    · rw [unshift_eq_empty (by omega) hfull hc0 v]
      refine ⟨by simpa using hlen, by simp [hcap] at hfull ⊢; omega, ?_, ?_, ?_, ?_⟩
      · simpa [hcap] using Nat.mod_lt (cb.head + S - 1) hS
      · simpa [hcap] using Nat.mod_lt (cb.head + S - 1) hS
      · intro _
        simp only [hcap, hc0]
        have h1 : (cb.head + S - 1) % S + (0 + 1) - 1 = (cb.head + S - 1) % S := by
          omega
        rw [h1, Nat.mod_mod_of_dvd _ dvd_rfl]
      · intro hc
        simp only at hc
        omega
    · rw [unshift_eq_mid (by omega) hfull hc0 v]
      have htv := hte (by omega)
      refine ⟨by simpa using hlen, by simp [hcap] at hfull ⊢; omega, ?_, ?_, ?_, ?_⟩
      · simpa [hcap] using Nat.mod_lt (cb.head + S - 1) hS
      · simpa using ht
      · intro _
        simp only [hcap]
        rw [htv]
        have h1 : (cb.head + S - 1) % S + (cb.count + 1) - 1 =
            (cb.head + S - 1) % S + cb.count := by omega
        rw [h1, Nat.mod_add_mod]
        have h2 : cb.head + S - 1 + cb.count = (cb.head + cb.count - 1) + S := by
          omega
        rw [h2, Nat.add_mod_right]
      · intro hc
        simp only at hc
        omega

lemma Inv_shift_state {S : Nat} {cb : CircularBuffer α} (h : Inv S cb) :
    Inv S cb.shift.1 := by
  obtain ⟨hlen, hcle, hh, ht, hte, he⟩ := h
  have hcap : cb.capacity = S := hlen
  have hS : 0 < S := by omega
  by_cases hc0 : cb.count = 0
  · unfold shift
    rw [if_pos hc0]
    exact ⟨hlen, hcle, hh, ht, hte, he⟩
  · rw [shift_eq (by omega) (by omega)]
    have htv := hte (by omega)
    refine ⟨hlen, by simp; omega, ?_, by simpa using ht, ?_, ?_⟩
    · simpa [hcap] using Nat.mod_lt (cb.head + 1) hS
    · intro hpos
      replace hpos : 0 < cb.count - 1 := hpos
      simp only [hcap]
      rw [htv]
      have h2 : (cb.head + 1) % S + (cb.count - 1) - 1 =
          (cb.head + 1) % S + (cb.count - 1 - 1) := by omega
      rw [h2, Nat.mod_add_mod]
      congr 1
      omega
    · intro hz
      replace hz : cb.count - 1 = 0 := hz
      simp only [hcap]
      have hc1 : cb.count = 1 := by omega
      have htv1 := hte (by omega)
      right
      rw [htv1, hc1]
      have h1 : cb.head + 1 - 1 = cb.head := by omega
      rw [h1, Nat.mod_add_mod]

lemma Inv_pop_state {S : Nat} {cb : CircularBuffer α} (h : Inv S cb) :
    Inv S cb.pop.1 := by
  obtain ⟨hlen, hcle, hh, ht, hte, he⟩ := h
  have hcap : cb.capacity = S := hlen
  have hS : 0 < S := by omega
  by_cases hc0 : cb.count = 0
  · unfold pop
    rw [if_pos hc0]
    exact ⟨hlen, hcle, hh, ht, hte, he⟩
  · rw [pop_eq (by omega) (by omega)]
    have htv := hte (by omega)
    refine ⟨hlen, by simp; omega, by simpa using hh, ?_, ?_, ?_⟩
    · simpa [hcap] using Nat.mod_lt (cb.tail + S - 1) hS
    · intro hpos
      replace hpos : 0 < cb.count - 1 := hpos
      simp only [hcap]
      rw [htv]
      have h1 : (cb.head + cb.count - 1) % S + S - 1 =
          (cb.head + cb.count - 1) % S + (S - 1) := by omega
      rw [h1, Nat.mod_add_mod]
      have h2 : cb.head + cb.count - 1 + (S - 1) =
          (cb.head + (cb.count - 1) - 1) + S := by omega
      rw [h2, Nat.add_mod_right]
    · intro hz
      replace hz : cb.count - 1 = 0 := hz
      simp only [hcap]
      have hc1 : cb.count = 1 := by omega
      have htv1 := hte (by omega)
      right
      rw [htv1, hc1]
      have h1 : cb.head + 1 - 1 = cb.head := by omega
      rw [h1, Nat.mod_eq_of_lt hh, Nat.mod_add_mod]
      have h3 : cb.head + S - 1 + 1 = cb.head + S := by omega
      rw [h3, Nat.add_mod_right, Nat.mod_eq_of_lt hh]

lemma Inv_shiftNoReturn {S : Nat} {cb : CircularBuffer α} (h : Inv S cb) :
    Inv S cb.shiftNoReturn := by
  by_cases hc0 : cb.count = 0
  · unfold shiftNoReturn
    rw [if_pos hc0]
    exact h
  · have he1 : cb.shiftNoReturn = cb.shift.1 := by
      have hh : cb.head < cb.capacity := by
        have := h.head_lt
        have := h.capacity_eq
        omega
      rw [shift_eq hh (by omega), shiftNoReturn_eq hh (by omega)]
    rw [he1]
    exact Inv_shift_state h

lemma Inv_popNoReturn {S : Nat} {cb : CircularBuffer α} (h : Inv S cb) :
    Inv S cb.popNoReturn := by
  by_cases hc0 : cb.count = 0
  · unfold popNoReturn
    rw [if_pos hc0]
    exact h
  · have he1 : cb.popNoReturn = cb.pop.1 := by
      have ht : cb.tail < cb.capacity := by
        have := h.tail_lt
        have := h.capacity_eq
        omega
      rw [pop_eq ht (by omega), popNoReturn_eq ht (by omega)]
    rw [he1]
    exact Inv_pop_state h

lemma Inv_clear {S : Nat} {cb : CircularBuffer α} (h : Inv S cb) :
    Inv S cb.clear := by
  have h1 := h.head_lt
  refine ⟨h.len, ?_, ?_, ?_, ?_, ?_⟩
  · exact Nat.zero_le S
  · show (0 : Nat) < S
    omega
  · show (0 : Nat) < S
    omega
  · intro hcontra
    simp [clear] at hcontra
  · intro _
    exact Or.inl rfl

lemma Inv_applyOp {S : Nat} {cb : CircularBuffer α} (h : Inv S cb) (op : Op α) :
    Inv S (applyOp cb op) := by
  cases op with
  | pushBack v => exact Inv_push h v
  | pushFront v => exact Inv_unshift h v
  | popFront => exact Inv_shift_state h
  | popBack => exact Inv_pop_state h
  | discardFront => exact Inv_shiftNoReturn h
  | discardBack => exact Inv_popNoReturn h
  | clearAll => exact Inv_clear h

/-- Every reachable state satisfies the invariant. -/
lemma Inv_of_reachable {init : List α} (hS : 0 < init.length)
    {cb : CircularBuffer α} (h : Reachable init cb) : Inv init.length cb := by
  induction h with
  | base => exact Inv_mkEmpty hS rfl
  | step op _ ih => exact Inv_applyOp ih op

end CircularBuffer

namespace CircularBuffer

variable {α β : Type} [Inhabited α] [Inhabited β]

/-! ### The logical contents of a buffer (oldest to newest) -/

/-- The logically live elements, oldest first: logical index `i` lives in
physical slot `(head + i) mod S`. -/
def logicalList (cb : CircularBuffer α) : List α :=
  (List.range cb.count).map
    (fun i => cb.buffer.getD ((cb.head + i) % cb.capacity) default)

lemma logicalList_length (cb : CircularBuffer α) :
    (logicalList cb).length = cb.count := by
  simp [logicalList]

lemma logicalList_getElem (cb : CircularBuffer α) {i : Nat}
    (h : i < (logicalList cb).length) :
    (logicalList cb)[i] = cb.buffer.getD ((cb.head + i) % cb.capacity) default := by
  simp [logicalList]

lemma logicalList_getD (cb : CircularBuffer α) {i : Nat} (h : i < cb.count) :
    (logicalList cb).getD i default =
      cb.buffer.getD ((cb.head + i) % cb.capacity) default := by
  rw [List.getD_eq_getElem _ _ (by simpa [logicalList_length] using h),
    logicalList_getElem]

/-- `operator[]` at an in-range logical index reads the logical contents. -/
lemma elemAt_eq_logicalList (cb : CircularBuffer α) {i : Nat}
    (h : i < cb.count) :
    cb.elemAt i = (logicalList cb).getD i default := by
  unfold elemAt refAt
  rw [if_neg (by omega), logicalList_getD cb h]

/-- Distinct logical offsets below `S` land in distinct physical slots. -/
lemma add_mod_inj {S a i j : Nat} (hi : i < S) (hj : j < S)
    (h : (a + i) % S = (a + j) % S) : i = j := by
  have h2 : i ≡ j [MOD S] := Nat.ModEq.add_left_cancel' a h
  have h3 : i % S = j % S := h2
  rw [Nat.mod_eq_of_lt hi, Nat.mod_eq_of_lt hj] at h3
  exact h3

/-- The effect of `push` on the logical contents: append the new value,
evicting the oldest element when the buffer was full; the returned flag is
`true` exactly when there was room. -/
lemma logicalList_push {S : Nat} {cb : CircularBuffer α} (h : Inv S cb)
    (v : α) :
    logicalList (cb.push v).1 =
      (if cb.count = S then (logicalList cb).drop 1 else logicalList cb) ++ [v] ∧
    (cb.push v).2 = decide (cb.count < S) := by
  obtain ⟨hlen, hcle, hh, ht, hte, -⟩ := h
  have hcap : cb.capacity = S := hlen
  have hS : 0 < S := by omega
  by_cases hfull : cb.count = S
  · have htv := hte (by omega)
    have htail' : (cb.tail + 1) % cb.capacity = cb.head := by
      rw [hcap, htv]
      have h1 : cb.head + cb.count - 1 + 1 = cb.head + S := by omega
      rw [Nat.mod_add_mod, h1, Nat.add_mod_right, Nat.mod_eq_of_lt hh]
    rw [push_eq_full (by omega) (by omega) (by omega) v, htail']
    refine ⟨?_, ?_⟩
    · rw [if_pos hfull]
      apply List.ext_getElem
      · simp [logicalList_length, logicalList, hfull]
        omega
      · intro n h1 h2
        rw [logicalList_getElem _ h1]
        simp only [logicalList_length] at h1
        replace h1 : n < S := by omega
        simp only [capacity, List.length_set, hlen, hcap]
        rcases Nat.lt_or_ge n (S - 1) with hlt | hge
        · -- a surviving element, physical slot (head + 1 + n) mod S ≠ head
          have hslotn : ((cb.head + 1) % S + n) % S = (cb.head + (1 + n)) % S := by
            rw [Nat.mod_add_mod]
            congr 1
            omega
          have hne : cb.head ≠ (cb.head + (1 + n)) % S := by
            intro he
            have he0 : (cb.head + 0) % S = (cb.head + (1 + n)) % S := by
              rw [Nat.add_zero, Nat.mod_eq_of_lt hh]
              exact he
            have := add_mod_inj (S := S) (by omega) (by omega) he0
            omega
          rw [hslotn, getD_set_ne hne v]
          rw [List.getElem_append_left
            (by simp [logicalList_length]; omega)]
          rw [List.getElem_drop]
          rw [logicalList_getElem _ (by simp [logicalList_length]; omega)]
          rw [hcap]
        · -- the newly written element, at slot head
          have hn1 : n = S - 1 := by omega
          have hslot : ((cb.head + 1) % S + n) % S = cb.head := by
            rw [Nat.mod_add_mod]
            have h3 : cb.head + 1 + n = cb.head + S := by omega
            rw [h3, Nat.add_mod_right, Nat.mod_eq_of_lt hh]
          rw [hslot, getD_set_self (by omega) v]
          rw [List.getElem_append_right
            (by simp [logicalList_length]; omega)]
          have hidx : n - (List.drop 1 (logicalList cb)).length = 0 := by
            simp [logicalList_length]
            omega
          simp [hidx]
    · have hnot : ¬ cb.count < S := by omega
      simp [hnot]
  · have hne : cb.count ≠ cb.capacity := by omega
    by_cases hc0 : cb.count = 0
    · rw [push_eq_empty (by omega) hne hc0 v]
      refine ⟨?_, ?_⟩
      · rw [if_neg hfull]
        have hlst : logicalList cb = [] := by
          simp [logicalList, hc0]
        rw [hlst, List.nil_append]
        apply List.ext_getElem
        · simp [logicalList_length, hc0]
        · intro n h1 h2
          rw [logicalList_getElem _ h1]
          simp only [logicalList_length] at h1
          replace h1 : n = 0 := by omega
          subst h1
          simp only [capacity, List.length_set, hlen, hcap]
          have hidx2 : ((cb.tail + 1) % S + 0) % S = (cb.tail + 1) % S := by
            simp
          rw [hidx2]
          rw [getD_set_self (by rw [hlen]; exact Nat.mod_lt _ hS) v]
          simp
      · have hl : cb.count < S := by omega
        simp [hl]
    · rw [push_eq_mid (by omega) hne hc0 v]
      have htv := hte (by omega)
      have htail' : (cb.tail + 1) % cb.capacity = (cb.head + cb.count) % S := by
        rw [hcap, htv, Nat.mod_add_mod]
        congr 1
        omega
      rw [htail']
      refine ⟨?_, ?_⟩
      · rw [if_neg hfull]
        apply List.ext_getElem
        · simp [logicalList_length, logicalList]
        · intro n h1 h2
          rw [logicalList_getElem _ h1]
          simp only [logicalList_length] at h1
          simp only [capacity, List.length_set, hlen, hcap]
          rcases Nat.lt_or_ge n cb.count with hlt | hge
          · have hnen : (cb.head + cb.count) % S ≠ (cb.head + n) % S := by
              intro he
              have := add_mod_inj (S := S) (by omega) (by omega) he
              omega
            rw [getD_set_ne hnen v]
            rw [List.getElem_append_left
              (by simpa [logicalList_length] using hlt)]
            rw [logicalList_getElem _ (by simpa [logicalList_length] using hlt)]
            rw [hcap]
          · have hn1 : n = cb.count := by omega
            have hslot : (cb.head + n) % S = (cb.head + cb.count) % S := by
              rw [hn1]
            rw [hslot, getD_set_self (by rw [hlen]; exact Nat.mod_lt _ hS) v]
            rw [List.getElem_append_right
              (by simp [logicalList_length]; omega)]
            have hidx : n - (logicalList cb).length = 0 := by
              simp [logicalList_length]
              omega
            simp [hidx]
      · have hl : cb.count < S := by omega
        simp [hl]

end CircularBuffer

namespace CircularBuffer

variable {α β : Type} [Inhabited α] [Inhabited β]

/-- A sequence of `push` (push_back) calls, collecting the returned flags. -/
def pushAll : CircularBuffer α → List α → CircularBuffer α × List Bool
  | cb, [] => (cb, [])
  | cb, v :: rest =>
    let r := cb.push v
    let r2 := pushAll r.1 rest
    (r2.1, r.2 :: r2.2)

lemma push_count {cb : CircularBuffer α} (v : α) :
    (cb.push v).1.count =
      if cb.count = cb.capacity then cb.count else cb.count + 1 := by
  unfold push
  dsimp only
  by_cases hfull : cb.count = cb.capacity <;> simp [hfull]

/-- Cumulative effect of a `push` sequence: the logical contents are the
last (at most `S`) elements of the old contents followed by the pushed
values, and the `j`-th returned flag records whether the buffer still had
room before the `j`-th push. -/
lemma pushAll_spec {S : Nat} (hS : 0 < S) :
    ∀ (vs : List α) (cb : CircularBuffer α), Inv S cb →
      Inv S (pushAll cb vs).1 ∧
      (pushAll cb vs).1.count = min (cb.count + vs.length) S ∧
      logicalList (pushAll cb vs).1 =
        (logicalList cb ++ vs).drop (cb.count + vs.length - S) ∧
      (pushAll cb vs).2 =
        (List.range vs.length).map (fun j => decide (cb.count + j < S)) := by
  intro vs
  induction vs with
  | nil =>
    intro cb hinv
    have hcle := hinv.count_le
    refine ⟨hinv, by simp [pushAll]; omega, ?_, by simp [pushAll]⟩
    have h0 : cb.count - S = 0 := by omega
    simp [pushAll, h0]
  | cons v rest ih =>
    intro cb hinv
    have hcle := hinv.count_le
    have hcap := hinv.capacity_eq
    obtain ⟨hLL, hflag⟩ := logicalList_push hinv v
    have hinv1 : Inv S (cb.push v).1 := Inv_push hinv v
    obtain ⟨ih1, ih2, ih3, ih4⟩ := ih (cb.push v).1 hinv1
    have hc1 : (cb.push v).1.count = min (cb.count + 1) S := by
      rw [push_count v, hcap]
      split <;> omega
    simp only [pushAll]
    refine ⟨ih1, ?_, ?_, ?_⟩
    · rw [ih2, hc1]
      simp only [List.length_cons]
      omega
    · rw [ih3, hLL, hc1]
      by_cases hfull : cb.count = S
      · rw [if_pos hfull]
        have hne : logicalList cb ≠ [] := by
          intro hnil
          have := congrArg List.length hnil
          rw [logicalList_length] at this
          simp at this
          omega
        obtain ⟨a, L1, hL⟩ := List.exists_cons_of_ne_nil hne
        rw [hL]
        have h5 : min (cb.count + 1) S + rest.length - S = rest.length := by
          omega
        have h6 : cb.count + (v :: rest).length - S = rest.length + 1 := by
          simp only [List.length_cons]
          omega
        rw [h5, h6]
        simp only [List.drop_succ_cons, List.drop_zero, List.cons_append,
          List.append_assoc, List.singleton_append, List.nil_append]
      · rw [if_neg hfull]
        have h7 : min (cb.count + 1) S + rest.length - S =
            cb.count + (v :: rest).length - S := by
          simp only [List.length_cons]
          omega
        rw [h7]
        simp only [List.append_assoc, List.singleton_append]
    · rw [hflag, ih4]
      simp only [List.length_cons, List.range_succ_eq_map, List.map_cons,
        List.map_map, Nat.add_zero]
      congr 1
      apply List.map_congr_left
      intro j hj
      simp only [Function.comp]
      rw [hc1, decide_eq_decide]
      omega

end CircularBuffer

namespace CircularBuffer

variable {α β : Type} [Inhabited α] [Inhabited β]

/-! ### Behaviour of the copy loops -/

/-- Full characterisation of one copy loop: it writes
`min (hi - lo) (fin - d)` converted source elements into consecutive
destination positions starting at `d`, leaves every other destination
position untouched, preserves the destination length, and returns the
position one past the last write. -/
lemma copyLoop_spec (src : List α) (f : α → β) :
    ∀ (n lo hi : Nat) (dest : List β) (d fin : Nat), hi - lo ≤ n →
      d ≤ fin → fin ≤ dest.length →
      (copyLoop src f lo hi dest d fin).2 = d + min (hi - lo) (fin - d) ∧
      (copyLoop src f lo hi dest d fin).1.length = dest.length ∧
      (∀ k, k < min (hi - lo) (fin - d) →
        (copyLoop src f lo hi dest d fin).1.getD (d + k) default =
          f (src.getD (lo + k) default)) ∧
      (∀ j, j < d ∨ d + min (hi - lo) (fin - d) ≤ j →
        (copyLoop src f lo hi dest d fin).1.getD j default =
          dest.getD j default) := by
  intro n
  induction n with
  | zero =>
    intro lo hi dest d fin hn hdf hfl
    have hstop : ¬(lo < hi ∧ d < fin) := by omega
    rw [copyLoop, dif_neg hstop]
    have hmin : min (hi - lo) (fin - d) = 0 := by omega
    refine ⟨by omega, rfl, ?_, ?_⟩
    · intro k hk
      omega
    · intro j hj
      rfl
  | succ m ihm =>
    intro lo hi dest d fin hn hdf hfl
    by_cases hgo : lo < hi ∧ d < fin
    · rw [copyLoop, dif_pos hgo]
      obtain ⟨hlohi, hdfin⟩ := hgo
      set dest1 := dest.set d (f (src.getD lo default)) with hdest1
      have hlen1 : dest1.length = dest.length := by
        rw [hdest1, List.length_set]
      obtain ⟨ihA, ihB, ihC, ihD⟩ :=
        ihm (lo + 1) hi dest1 (d + 1) fin (by omega) (by omega)
          (by omega)
      have hmin : min (hi - lo) (fin - d) =
          min (hi - (lo + 1)) (fin - (d + 1)) + 1 := by omega
      refine ⟨by rw [ihA]; omega, by rw [ihB, hlen1], ?_, ?_⟩
      · intro k hk
        rcases Nat.eq_zero_or_pos k with hk0 | hkpos
        · subst hk0
          have e1 := ihD d (Or.inl (by omega))
          simp only [Nat.add_zero]
          rw [e1, hdest1, getD_set_self (by omega) _]
        · have hk1 : k - 1 < min (hi - (lo + 1)) (fin - (d + 1)) := by omega
          have he1 : d + k = (d + 1) + (k - 1) := by omega
          have he2 : lo + k = (lo + 1) + (k - 1) := by omega
          rw [he1, he2, ihC (k - 1) hk1]
      · intro j hj
        have hj1 : j < d + 1 ∨ (d + 1) + min (hi - (lo + 1)) (fin - (d + 1)) ≤ j := by
          omega
        rw [ihD j hj1, hdest1, getD_set_ne (by omega) _]
    · rw [copyLoop, dif_neg hgo]
      have hmin : min (hi - lo) (fin - d) = 0 := by omega
      refine ⟨by omega, rfl, ?_, ?_⟩
      · intro k hk
        omega
      · intro j hj
        rfl

end CircularBuffer

namespace CircularBuffer

variable {α β : Type} [Inhabited α] [Inhabited β]

/-- `copyToArray` (converting overload) on an invariant-satisfying state:
the first `count` destination positions receive the logically-ordered
elements (converted), stitching the wrapped runs; everything else in the
destination is untouched. -/
lemma copyToArrayFn_spec {S : Nat} {cb : CircularBuffer α} (h : Inv S cb)
    (f : α → β) (dest : List β) (hd : cb.count ≤ dest.length) :
    ((cb.copyToArrayFn f dest).2).length = dest.length ∧
    (∀ j, j < cb.count →
      ((cb.copyToArrayFn f dest).2).getD j default =
        f (cb.buffer.getD ((cb.head + j) % S) default)) ∧
    (∀ j, cb.count ≤ j →
      ((cb.copyToArrayFn f dest).2).getD j default = dest.getD j default) := by
  obtain ⟨hlen, hcle, hh, ht, hte, -⟩ := h
  have hcap : cb.capacity = S := hlen
  have hS : 0 < S := by omega
  unfold copyToArrayFn
  dsimp only
  rw [hcap]
  obtain ⟨hA1, hB1, hC1, hD1⟩ :=
    copyLoop_spec cb.buffer f (S - cb.head) cb.head S dest 0 cb.count
      (le_refl _) (Nat.zero_le _) (by omega)
  simp only [Nat.zero_add, Nat.sub_zero] at hA1 hC1 hD1
  obtain ⟨hA2, hB2, hC2, hD2⟩ :=
    copyLoop_spec cb.buffer f (cb.tail + 1)
      0 (cb.tail + 1)
      (copyLoop cb.buffer f cb.head S dest 0 cb.count).1
      (copyLoop cb.buffer f cb.head S dest 0 cb.count).2 cb.count
      (by omega) (by rw [hA1]; omega) (by rw [hB1]; omega)
  simp only [Nat.sub_zero] at hA2 hC2 hD2
  refine ⟨by rw [hB2, hB1], ?_, ?_⟩
  · intro j hj
    by_cases hwrap : cb.head + cb.count ≤ S
    · -- content does not wrap: the first loop does all the copying
      have hw1 : (copyLoop cb.buffer f cb.head S dest 0 cb.count).2 =
          cb.count := by
        rw [hA1]
        omega
      rw [hD2 j (Or.inl (by omega)), hC1 j (by omega)]
      rw [Nat.mod_eq_of_lt (by omega)]
    · -- wrapped content: stitch the two runs
      have htv := hte (by omega)
      have htail : cb.tail = cb.head + cb.count - 1 - S := by
        rw [htv]
        have h1 : cb.head + cb.count - 1 = (cb.head + cb.count - 1 - S) + S := by
          omega
        rw [h1, Nat.add_mod_right, Nat.mod_eq_of_lt (by omega)]
        omega
      have hw1 : (copyLoop cb.buffer f cb.head S dest 0 cb.count).2 =
          S - cb.head := by
        rw [hA1]
        omega
      rcases Nat.lt_or_ge j (S - cb.head) with hj1 | hj2
      · -- first run: physical slots head .. S-1
        rw [hD2 j (Or.inl (by omega)), hC1 j (by omega)]
        rw [Nat.mod_eq_of_lt (by omega)]
      · -- second run: physical slots 0 .. tail
        have hk := hC2 (j - (S - cb.head)) (by omega)
        have he1 : (copyLoop cb.buffer f cb.head S dest 0 cb.count).2 +
            (j - (S - cb.head)) = j := by omega
        rw [he1] at hk
        rw [hk]
        have hidx : (cb.head + j) % S = j - (S - cb.head) := by
          have h1 : cb.head + j = (j - (S - cb.head)) + S := by omega
          rw [h1, Nat.add_mod_right, Nat.mod_eq_of_lt (by omega)]
        rw [hidx]
        have he2 : 0 + (j - (S - cb.head)) = j - (S - cb.head) := by omega
        rw [he2]
  · intro j hj
    rw [hD2 j (Or.inr (by rw [hA1]; omega)), hD1 j (Or.inr (by omega))]

end CircularBuffer

namespace CircularBuffer

variable {α β : Type} [Inhabited α] [Inhabited β]

lemma shift_snd {cb : CircularBuffer α} (hc : cb.count ≠ 0) :
    cb.shift.2 = cb.buffer.getD cb.head default ∧
    cb.shift.1.count = cb.count - 1 := by
  unfold shift
  rw [if_neg hc]
  exact ⟨rfl, rfl⟩

/-- Claim C1: on any state with in-range `head` and `tail`, `push` advances
`tail` one slot forward wrapping to 0 at capacity and stores the value
there; if the buffer was full it also advances `head` (wrapping), keeps
`count` at `S` and returns `false`; otherwise it increments `count` (setting
`head = tail` when the buffer was empty) and returns `true`. -/
theorem push_back_spec (cb : CircularBuffer α) (v : α)
    (hh : cb.head < cb.capacity) (ht : cb.tail < cb.capacity) :
    (cb.push v).1.tail = (cb.tail + 1) % cb.capacity ∧
    (cb.push v).1.buffer = cb.buffer.set ((cb.tail + 1) % cb.capacity) v ∧
    (cb.count = cb.capacity →
      (cb.push v).1.head = (cb.head + 1) % cb.capacity ∧
      (cb.push v).1.count = cb.capacity ∧ (cb.push v).2 = false) ∧
    (cb.count ≠ cb.capacity →
      (cb.push v).1.count = cb.count + 1 ∧ (cb.push v).2 = true ∧
      (cb.count = 0 → (cb.push v).1.head = (cb.push v).1.tail) ∧
      (cb.count ≠ 0 → (cb.push v).1.head = cb.head)) := by
  by_cases hfull : cb.count = cb.capacity
  · rw [push_eq_full hh ht hfull v]
    exact ⟨rfl, rfl, fun _ => ⟨rfl, hfull, rfl⟩, fun hne => absurd hfull hne⟩
  · by_cases hc0 : cb.count = 0
    · rw [push_eq_empty ht hfull hc0 v]
      exact ⟨rfl, rfl, fun hf => absurd hf hfull,
        fun _ => ⟨rfl, rfl, fun _ => rfl, fun hne0 => absurd hc0 hne0⟩⟩
    · rw [push_eq_mid ht hfull hc0 v]
      exact ⟨rfl, rfl, fun hf => absurd hf hfull,
        fun _ => ⟨rfl, rfl, fun h0 => absurd h0 hc0, fun _ => rfl⟩⟩

theorem push_back_spec_witness :
    ((⟨[10, 20], 0, 0, 1⟩ : CircularBuffer Nat).push 99).1.tail =
      (0 + 1) % 2 ∧
    ((⟨[10, 20], 0, 0, 1⟩ : CircularBuffer Nat).push 99).2 = true :=
  have h := push_back_spec (⟨[10, 20], 0, 0, 1⟩ : CircularBuffer Nat) 99
    (by decide) (by decide)
  ⟨h.1, (h.2.2.2 (by decide)).2.1⟩

/-- Claim C2: `operator[]` (both overloads are embedded by the single
function `refAt`/`elemAt`, their bodies being byte-identical) yields a
reference to the `tail` slot when the index is at least `count`, and a
reference to physical slot `(head + index) mod S` otherwise; it is a total
function of the state that never fails and returns the state unchanged
(the embedding is pure, so no frame clause is needed). -/
theorem subscript_spec (cb : CircularBuffer α) (i : Nat) :
    (cb.count ≤ i → cb.refAt i = cb.tail ∧
      cb.elemAt i = cb.buffer.getD cb.tail default) ∧
    (i < cb.count → cb.refAt i = (cb.head + i) % cb.capacity ∧
      cb.elemAt i = cb.buffer.getD ((cb.head + i) % cb.capacity) default) := by
  unfold elemAt refAt
  constructor
  · intro hle
    rw [if_pos (by omega)]
    exact ⟨rfl, rfl⟩
  · intro hlt
    rw [if_neg (by omega)]
    exact ⟨rfl, rfl⟩

theorem subscript_spec_witness :
    (⟨[5, 6, 7], 1, 2, 2⟩ : CircularBuffer Nat).refAt 5 = 2 ∧
    (⟨[5, 6, 7], 1, 2, 2⟩ : CircularBuffer Nat).refAt 1 = (1 + 1) % 3 :=
  have h5 := subscript_spec (⟨[5, 6, 7], 1, 2, 2⟩ : CircularBuffer Nat) 5
  have h1 := subscript_spec (⟨[5, 6, 7], 1, 2, 2⟩ : CircularBuffer Nat) 1
  ⟨(h5.1 (by decide)).1, (h1.2 (by decide)).1⟩

/-- Claim C3: pushing `S + 1` values into an initially empty buffer of
positive capacity `S` returns `true` for the first `S` pushes and `false`
for the last; afterwards `size() = S`, the first value is evicted, and
`element_at(i)` is the `(i+2)`-th pushed value (0-based: `vs.getD (i+1)`)
for every `i < S`; in particular `element_at(0)` is the second value. -/
theorem push_overflow_evicts_oldest (S : Nat) (hS : 0 < S)
    (init vs : List α) (hinit : init.length = S) (hvs : vs.length = S + 1) :
    (pushAll (mkEmpty init) vs).2 = List.replicate S true ++ [false] ∧
    (pushAll (mkEmpty init) vs).1.size = S ∧
    (pushAll (mkEmpty init) vs).1.elemAt 0 = vs.getD 1 default ∧
    (∀ i, i < S →
      (pushAll (mkEmpty init) vs).1.elemAt i = vs.getD (i + 1) default) := by
  have hinv0 : Inv S (mkEmpty init) := Inv_mkEmpty hS hinit
  obtain ⟨hinv, hcount, hlog, hflags⟩ := pushAll_spec hS vs (mkEmpty init) hinv0
  have h0 : (mkEmpty init).count = 0 := rfl
  rw [h0, hvs] at hcount hlog hflags
  have hcnt : (pushAll (mkEmpty init) vs).1.count = S := by
    rw [hcount]
    omega
  have hemp : logicalList (mkEmpty init) = [] := by
    simp [logicalList, mkEmpty]
  rw [hemp, List.nil_append] at hlog
  have hd1 : 0 + (S + 1) - S = 1 := by omega
  rw [hd1] at hlog
  have hall : ∀ i, i < S →
      (pushAll (mkEmpty init) vs).1.elemAt i = vs.getD (i + 1) default := by
    intro i hi
    rw [elemAt_eq_logicalList _ (by rw [hcnt]; exact hi), hlog]
    rw [List.getD_eq_getElem _ _ (by simp [hvs]; omega),
      List.getD_eq_getElem _ _ (by rw [hvs]; omega)]
    rw [List.getElem_drop]
    congr 1
    omega
  refine ⟨?_, hcnt, hall 0 hS, hall⟩
  rw [hflags, List.range_succ, List.map_append]
  congr 1
  · apply List.eq_replicate_iff.mpr
    refine ⟨by simp, ?_⟩
    intro b hb
    simp only [List.mem_map, List.mem_range] at hb
    obtain ⟨j, hj, hbj⟩ := hb
    rw [← hbj]
    simp only [decide_eq_true_eq]
    omega
  · simp

theorem push_overflow_evicts_oldest_witness :
    (0 : Nat) < 2 ∧ ([0, 0] : List Nat).length = 2 ∧
    ([10, 20, 30] : List Nat).length = 2 + 1 ∧
    ((pushAll (mkEmpty ([0, 0] : List Nat)) [10, 20, 30]).2 =
        List.replicate 2 true ++ [false] ∧
      (pushAll (mkEmpty ([0, 0] : List Nat)) [10, 20, 30]).1.size = 2 ∧
      (pushAll (mkEmpty ([0, 0] : List Nat)) [10, 20, 30]).1.elemAt 0 =
        ([10, 20, 30] : List Nat).getD 1 default ∧
      (∀ i, i < 2 →
        (pushAll (mkEmpty ([0, 0] : List Nat)) [10, 20, 30]).1.elemAt i =
          ([10, 20, 30] : List Nat).getD (i + 1) default)) :=
  ⟨by decide, by decide, by decide,
    push_overflow_evicts_oldest 2 (by decide) [0, 0] [10, 20, 30]
      (by decide) (by decide)⟩

end CircularBuffer

namespace CircularBuffer

variable {α β : Type} [Inhabited α] [Inhabited β]

/-- Claim C4, counterexample: on capacity 2, `push_back(5)` followed by
`pop_front()` reaches a state with `count = 0` but `head = 0 ≠ 1 = tail`,
so "count == 0 implies head = tail" fails on the code. -/
theorem empty_head_eq_tail_cex :
    Reachable ([0, 0] : List Nat)
      (applyOp (applyOp (mkEmpty [0, 0]) (Op.pushBack 5)) Op.popFront) ∧
    (applyOp (applyOp (mkEmpty ([0, 0] : List Nat)) (Op.pushBack 5))
        Op.popFront).count = 0 ∧
    ¬ ((applyOp (applyOp (mkEmpty ([0, 0] : List Nat)) (Op.pushBack 5))
          Op.popFront).head =
        (applyOp (applyOp (mkEmpty ([0, 0] : List Nat)) (Op.pushBack 5))
          Op.popFront).tail) :=
  ⟨Reachable.step Op.popFront (Reachable.step (Op.pushBack 5) Reachable.base),
   by decide, by decide⟩

/-- Claim C4 (amended): in every reachable state of a buffer of positive
capacity, `count = 0` implies that `head` and `tail` coincide or that
`head` is the slot one past `tail` (mod `S`) — the latter arises right
after removing the last element. -/
theorem empty_head_tail_adjacent {init : List α} (hS : 0 < init.length)
    {cb : CircularBuffer α} (hr : Reachable init cb) (hc : cb.count = 0) :
    cb.head = cb.tail ∨ cb.head = (cb.tail + 1) % init.length :=
  (Inv_of_reachable hS hr).empty_ht hc

theorem empty_head_tail_adjacent_witness :
    (0 : Nat) < ([0, 0] : List Nat).length ∧
    (mkEmpty ([0, 0] : List Nat)).count = 0 ∧
    ((mkEmpty ([0, 0] : List Nat)).head = (mkEmpty [0, 0]).tail ∨
      (mkEmpty ([0, 0] : List Nat)).head =
        ((mkEmpty [0, 0]).tail + 1) % ([0, 0] : List Nat).length) :=
  ⟨by decide, by decide,
    empty_head_tail_adjacent (by decide) Reachable.base (by decide)⟩

/-- Claim C5: on every reachable state, `copyToArray` (with or without a
conversion function) writes exactly `count` elements into a sufficiently
large destination: position `j < count` receives (the conversion of) the
element in physical slot `(head + j) mod S` — the logical order, oldest to
newest, stitched across the wraparound — and every other destination
position keeps its previous value. -/
theorem copyToArray_spec {init : List α} (hS : 0 < init.length)
    {cb : CircularBuffer α} (hr : Reachable init cb) (f : α → β)
    (dest : List α) (destB : List β) (hd : cb.count ≤ dest.length)
    (hdB : cb.count ≤ destB.length) :
    ((cb.copyToArray dest).2.length = dest.length ∧
      (∀ j, j < cb.count →
        (cb.copyToArray dest).2.getD j default =
          cb.buffer.getD ((cb.head + j) % init.length) default) ∧
      (∀ j, cb.count ≤ j →
        (cb.copyToArray dest).2.getD j default = dest.getD j default)) ∧
    ((cb.copyToArrayFn f destB).2.length = destB.length ∧
      (∀ j, j < cb.count →
        (cb.copyToArrayFn f destB).2.getD j default =
          f (cb.buffer.getD ((cb.head + j) % init.length) default)) ∧
      (∀ j, cb.count ≤ j →
        (cb.copyToArrayFn f destB).2.getD j default = destB.getD j default)) := by
  have hinv := Inv_of_reachable hS hr
  constructor
  · have h := copyToArrayFn_spec hinv id dest hd
    exact h
  · exact copyToArrayFn_spec hinv f destB hdB

theorem copyToArray_spec_witness :
    ((applyOp (mkEmpty ([0, 0] : List Nat)) (Op.pushBack 7)).copyToArray
        [9, 9]).2.getD 0 default =
      (applyOp (mkEmpty ([0, 0] : List Nat)) (Op.pushBack 7)).buffer.getD
        (((applyOp (mkEmpty ([0, 0] : List Nat)) (Op.pushBack 7)).head + 0) %
          ([0, 0] : List Nat).length) default :=
  have h := copyToArray_spec (by decide)
    (Reachable.step (Op.pushBack 7) Reachable.base) Nat.succ [9, 9] [9, 9]
    (by decide) (by decide)
  h.1.2.1 0 (by decide)

/-- Claim C6: popping from an empty buffer is a non-mutating no-op that
returns the value presently at `head` (for `pop_front`/`shift`) or at
`tail` (for `pop_back`/`pop`): the state — `head`, `tail`, `count` and
storage — is returned unchanged. -/
theorem pop_empty_spec (cb : CircularBuffer α) (hc : cb.count = 0) :
    cb.shift = (cb, cb.buffer.getD cb.head default) ∧
    cb.pop = (cb, cb.buffer.getD cb.tail default) := by
  unfold shift pop
  rw [if_pos hc, if_pos hc]
  exact ⟨rfl, rfl⟩

theorem pop_empty_spec_witness :
    (⟨[3, 4], 1, 0, 0⟩ : CircularBuffer Nat).shift =
      (⟨[3, 4], 1, 0, 0⟩, 4) ∧
    (⟨[3, 4], 1, 0, 0⟩ : CircularBuffer Nat).pop =
      (⟨[3, 4], 1, 0, 0⟩, 3) :=
  have h := pop_empty_spec (⟨[3, 4], 1, 0, 0⟩ : CircularBuffer Nat) (by decide)
  ⟨h.1.trans (by decide), h.2.trans (by decide)⟩

/-- Claim C7: in every state reachable from the default-constructed buffer
of positive capacity, the storage length is still `S` and `head` and `tail`
are valid indices into it, i.e. both lie in `[0, S)`. -/
theorem head_tail_in_range {init : List α} (hS : 0 < init.length)
    {cb : CircularBuffer α} (hr : Reachable init cb) :
    cb.capacity = init.length ∧ cb.head < init.length ∧
    cb.tail < init.length :=
  ⟨(Inv_of_reachable hS hr).len, (Inv_of_reachable hS hr).head_lt,
   (Inv_of_reachable hS hr).tail_lt⟩

theorem head_tail_in_range_witness :
    (mkEmpty ([0, 0] : List Nat)).capacity = ([0, 0] : List Nat).length ∧
    (mkEmpty ([0, 0] : List Nat)).head < ([0, 0] : List Nat).length ∧
    (mkEmpty ([0, 0] : List Nat)).tail < ([0, 0] : List Nat).length :=
  head_tail_in_range (by decide) Reachable.base

/-- Claim C8: from an empty (valid) state, `push_front(v)` then `pop_front()`
returns `v` and leaves the buffer empty again. -/
theorem unshift_shift_roundtrip (cb : CircularBuffer α) (v : α)
    (hh : cb.head < cb.capacity) (hc : cb.count = 0) :
    ((cb.unshift v).1.shift).2 = v ∧ ((cb.unshift v).1.shift).1.count = 0 := by
  have hS : 0 < cb.capacity := by omega
  have hne : cb.count ≠ cb.capacity := by omega
  have h1 := unshift_eq_empty hh hne hc v
  have hcb1h : (cb.unshift v).1.head =
      (cb.head + cb.capacity - 1) % cb.capacity := by rw [h1]
  have hcb1b : (cb.unshift v).1.buffer =
      cb.buffer.set ((cb.head + cb.capacity - 1) % cb.capacity) v := by rw [h1]
  have hcb1c : (cb.unshift v).1.count = cb.count + 1 := by rw [h1]
  obtain ⟨hv, hcnt⟩ := @shift_snd α _ ((cb.unshift v).1) (by omega)
  have hlt : (cb.head + cb.capacity - 1) % cb.capacity < cb.buffer.length :=
    Nat.mod_lt _ hS
  constructor
  · rw [hv, hcb1b, hcb1h, getD_set_self hlt v]
  · rw [hcnt, hcb1c]
    omega

theorem unshift_shift_roundtrip_witness :
    (((mkEmpty ([0, 0] : List Nat)).unshift 42).1.shift).2 = 42 ∧
    (((mkEmpty ([0, 0] : List Nat)).unshift 42).1.shift).1.count = 0 :=
  unshift_shift_roundtrip (mkEmpty [0, 0]) 42 (by decide) (by decide)

/-- Claim C9: in every reachable state of a buffer of positive capacity,
`isFull` holds iff `size = S`, `isEmpty` holds iff `size = 0`, and
`available + size = S`; all four queries are pure functions of the state
in this embedding, so they cannot modify it. -/
theorem query_ops_spec {init : List α} (hS : 0 < init.length)
    {cb : CircularBuffer α} (hr : Reachable init cb) :
    (cb.isFull = true ↔ cb.size = init.length) ∧
    (cb.isEmpty = true ↔ cb.size = 0) ∧
    cb.available + cb.size = init.length := by
  have hinv := Inv_of_reachable hS hr
  have hlen := hinv.len
  have hcle := hinv.count_le
  refine ⟨?_, ?_, ?_⟩
  · simp only [isFull, size, capacity, hlen, decide_eq_true_eq]
  · simp only [isEmpty, size, decide_eq_true_eq]
  · simp only [available, size, capacity, hlen]
    omega

theorem query_ops_spec_witness :
    ((mkEmpty ([0, 0] : List Nat)).isFull = true ↔
      (mkEmpty ([0, 0] : List Nat)).size = ([0, 0] : List Nat).length) ∧
    ((mkEmpty ([0, 0] : List Nat)).isEmpty = true ↔
      (mkEmpty ([0, 0] : List Nat)).size = 0) ∧
    (mkEmpty ([0, 0] : List Nat)).available +
      (mkEmpty ([0, 0] : List Nat)).size = ([0, 0] : List Nat).length :=
  query_ops_spec (by decide) Reachable.base

/-- Claim C10: both `copyToArray` overloads are `const`: the returned
container state is the input state, field by field — `head`, `tail`,
`count` and every storage slot are unchanged (in the embedding the loops
only ever write to the destination array, so the state passes through). -/
theorem copyToArray_preserves_state (cb : CircularBuffer α) (f : α → β)
    (dest : List α) (destB : List β) :
    (cb.copyToArray dest).1.head = cb.head ∧
    (cb.copyToArray dest).1.tail = cb.tail ∧
    (cb.copyToArray dest).1.count = cb.count ∧
    (∀ j, (cb.copyToArray dest).1.buffer.getD j default =
      cb.buffer.getD j default) ∧
    (cb.copyToArrayFn f destB).1.head = cb.head ∧
    (cb.copyToArrayFn f destB).1.tail = cb.tail ∧
    (cb.copyToArrayFn f destB).1.count = cb.count ∧
    (∀ j, (cb.copyToArrayFn f destB).1.buffer.getD j default =
      cb.buffer.getD j default) :=
  ⟨rfl, rfl, rfl, fun _ => rfl, rfl, rfl, rfl, fun _ => rfl⟩

end CircularBuffer
